import Mathlib

/-!
Verification development for the `tlock_auction` contract of the
iridium-labs/contracts repository.

The contract state and its three messages (`propose`, `bid`, `complete`)
are embedded from `src/tlock_auction/lib.rs`.  Byte vectors (`Vec<u8>`)
become `List Nat`, account identifiers become `Nat`, the storage
`Mapping<AccountId, (Vec<u8>, Vec<u8>, Vec<Vec<u8>>)>` becomes an
association list with overwrite-on-insert, and the chain-extension slot
clock `check_slot : u32 -> bool` becomes an explicit function argument
`clock : Nat → Bool`.  A Rust panic (vector index out of bounds, or
`.unwrap()` on an `Err`) reverts the whole contract call, so every
message is modelled as returning `Option TlockAuction`, with `none`
standing for the panic/revert and `some s` for a call that finished and
left state `s`.

The `DefaultEtfClient::<BfIbe>` encrypt/decrypt functions live in the
external `crypto` crate, which is not part of this repository's sources;
they are modelled from the specification (see the doc comments marked
`Modelled from the spec:` below).
-/

/-- Errors of the time-lock encryption client, as named by the spec's
error taxonomy (the `crypto` crate itself is not in the sources). -/
inductive EtfError where
  | InvalidThreshold
  | InsufficientShares
  | AuthenticationFailed
  | CapsuleMismatch
deriving DecidableEq, Repr

instance {ε α : Type} [DecidableEq ε] [DecidableEq α] : DecidableEq (Except ε α)
  | .error a, .error b =>
    if h : a = b then .isTrue (by rw [h])
    else .isFalse (fun hc => h (Except.error.inj hc))
  | .error _, .ok _ => .isFalse (fun hc => Except.noConfusion hc)
  | .ok _, .error _ => .isFalse (fun hc => Except.noConfusion hc)
  | .ok a, .ok b =>
    if h : a = b then .isTrue (by rw [h])
    else .isFalse (fun hc => h (Except.ok.inj hc))

/-- `AuctionItem` from `src/tlock_auction/lib.rs`: name bytes, asset id,
amount. -/
structure AuctionItem where
  name : List Nat
  asset_id : Nat
  amount : Nat
deriving DecidableEq, Repr

/-- A stored proposal: the `(ciphertext, nonce, capsule)` triple kept in
the `proposals` mapping of the contract. -/
structure Proposal where
  ciphertext : List Nat
  nonce : List Nat
  capsule : List (List Nat)
deriving DecidableEq, Repr

/-- Lookup in the association-list model of the ink `Mapping` storage. -/
def lookupProposal (props : List (Nat × Proposal)) (c : Nat) : Option Proposal :=
  (props.find? (fun q => q.1 == c)).map (fun q => q.2)

/-- Insert in the association-list model of the ink `Mapping` storage:
`Mapping::insert` overwrites any existing entry for the key. -/
def insertProposal (props : List (Nat × Proposal)) (c : Nat) (p : Proposal) :
    List (Nat × Proposal) :=
  match props with
  | [] => [(c, p)]
  | q :: rest => if q.1 == c then (c, p) :: rest else q :: insertProposal rest c p

/-- The contract storage struct `TlockAuction` from
`src/tlock_auction/lib.rs`. -/
structure TlockAuction where
  auction_item : AuctionItem
  slot_ids : List Nat
  threshold : Nat
  proposals : List (Nat × Proposal)
  participants : List Nat
  winners : List Nat
  revealed_bids : List (List Nat)
deriving DecidableEq, Repr

namespace TlockAuction

/-- Constructor `new`: stores the item, schedule and threshold as given;
the source performs no validation of any argument. -/
def new (name : List Nat) (asset_id : Nat) (amount : Nat)
    (slot_ids : List Nat) (threshold : Nat) : TlockAuction :=
  { auction_item := { name := name, asset_id := asset_id, amount := amount }
    slot_ids := slot_ids
    threshold := threshold
    proposals := []
    participants := []
    winners := []
    revealed_bids := [] }

/-- Constructor `default`: delegates to `new` with an empty name, zero
ids and an empty (default) slot schedule and zero threshold. -/
def defaultState : TlockAuction :=
  new [] 0 0 [] 0

end TlockAuction

/-- `Modelled from the spec:` the IBE slot secret `secret_for(slot_id)`
derived from the public parameters; the `crypto` crate's `extract` is not
in the sources.  The pad is an injective function of the public
parameters and the slot identity. -/
def slotSecret (pp slot : Nat) : Nat :=
  Nat.pair pp slot

/-- Fold a byte list into a single number (used by the modelled
authentication tag). -/
def listHash (xs : List Nat) : Nat :=
  xs.foldl Nat.pair 0

/-- `Modelled from the spec:` the authentication tag of the authenticated
symmetric cipher, a function of key, nonce and message. -/
def authTag (k : Nat) (nonce m : List Nat) : Nat :=
  Nat.pair k (Nat.pair (listHash nonce) (listHash m))

/-- `Modelled from the spec:` authenticated symmetric encryption of the
bid payload under a per-bid key and nonce (AES-GCM in the real client,
which is not in the sources): the tag followed by the masked payload. -/
def symEncrypt (k : Nat) (nonce m : List Nat) : List Nat :=
  authTag k nonce m :: m.map (fun b => b ^^^ k)

/-- `Modelled from the spec:` authenticated symmetric decryption;
`AuthenticationFailed` if the tag does not verify under the supplied key
and nonce. -/
def symDecrypt (k : Nat) (nonce ct : List Nat) : Except EtfError (List Nat) :=
  match ct with
  | [] => .error .AuthenticationFailed
  | tag :: body =>
    let m := body.map (fun b => b ^^^ k)
    if authTag k nonce m = tag then .ok m else .error .AuthenticationFailed

/-- `Modelled from the spec:` the IBE capsule produced by encrypting the
symmetric key against a slot schedule with a threshold: a header
component carrying the threshold, then one component per slot identity
holding the slot id and the key masked by that slot's IBE pad. -/
def encCapsule (pp k : Nat) (slots : List Nat) (t : Nat) : List (List Nat) :=
  [t] :: slots.map (fun slot => [slot, k ^^^ slotSecret pp slot])

/-- `Modelled from the spec:` `encrypt_bid(message, slot_schedule,
threshold)` of the time-lock encryptor (`DefaultEtfClient::encrypt` is
not in the sources).  The fresh random symmetric key and nonce are taken
as explicit inputs.  Encryption with a threshold exceeding the number of
slot identities is `InvalidThreshold`. -/
def encryptBid (pp : Nat) (m : List Nat) (slots : List Nat) (t : Nat)
    (k : Nat) (nonce : List Nat) :
    Except EtfError (List Nat × List Nat × List (List Nat)) :=
  if slots.length < t then .error .InvalidThreshold
  else .ok (symEncrypt k nonce m, nonce, encCapsule pp k slots t)

/-- A slot secret supplied to decryption: `{slot_id, key_material}` per
the spec's `SlotSecret` record. -/
def lookupSecret (slot : Nat) (secrets : List (Nat × Nat)) : Option Nat :=
  (secrets.find? (fun q => q.1 == slot)).map (fun q => q.2)

/-- The pad values recovered from the capsule share components for which
a slot secret is available. -/
def recoverShares (secrets : List (Nat × Nat)) (shares : List (List Nat)) :
    List Nat :=
  shares.filterMap (fun sh =>
    match sh with
    | [slot, masked] => (lookupSecret slot secrets).map (fun key => masked ^^^ key)
    | _ => none)

/-- `Modelled from the spec:` `decrypt_bid` / `DefaultEtfClient::decrypt`
(not in the sources): recover the symmetric key from the capsule given
the available slot secrets — `InsufficientShares` when fewer than the
capsule's threshold of them match, `CapsuleMismatch` on a malformed
capsule — then run authenticated symmetric decryption. -/
def decryptBid (pp : Nat) (ct nonce : List Nat) (capsule : List (List Nat))
    (secrets : List (Nat × Nat)) : Except EtfError (List Nat) :=
  match capsule with
  | [t] :: shares =>
    let recovered := recoverShares secrets shares
    if recovered.length < t then .error .InsufficientShares
    else
      match recovered with
      | [] => .error .CapsuleMismatch
      | key :: _ => symDecrypt key nonce ct
  | _ => .error .CapsuleMismatch

namespace TlockAuction

/-- Message `propose` from `src/tlock_auction/lib.rs`.  The source first
indexes `slot_ids[slot_ids.len() - 1]` (a panic on an empty schedule,
modelled by `none`), computes `is_past_deadline` via the chain
extension, but the `if is_past_deadline` branch is empty (only the
comment `STOP here, return error`), so execution always falls through:
the caller is appended to `participants` unless already present, and the
proposal is inserted (overwriting any previous one). -/
def propose (clock : Nat → Bool) (caller : Nat)
    (ciphertext nonce : List Nat) (capsule : List (List Nat))
    (s : TlockAuction) : Option TlockAuction :=
  match s.slot_ids.getLast? with
  | none => none
  | some deadline =>
    let _is_past_deadline := clock deadline
    some { s with
      participants :=
        if s.participants.contains caller then s.participants
        else s.participants ++ [caller]
      proposals := insertProposal s.proposals caller
        { ciphertext := ciphertext, nonce := nonce, capsule := capsule } }

/-- Message `bid` from `src/tlock_auction/lib.rs`: indexes the last slot
id (panic on empty schedule), queries the clock, and every branch body
is a comment — no state is changed. -/
def bid (clock : Nat → Bool) (caller : Nat) (amount : Nat)
    (s : TlockAuction) : Option TlockAuction :=
  match s.slot_ids.getLast? with
  | none => none
  | some deadline =>
    let _is_past_deadline := clock deadline
    let _is_winner := s.winners.contains caller
    some s

/-- The `for_each` loop of `complete`: for each registered participant,
look up the stored proposal (the `Option::iter` skips a missing entry),
decrypt it and `.unwrap()` — a decryption error panics, reverting the
whole call (`none`) — and push the plaintext onto `revealed_bids`. -/
def completeLoop (pp : Nat) (secrets : List (Nat × Nat)) :
    List Nat → TlockAuction → Option TlockAuction
  | [], s => some s
  | p :: rest, s =>
    match lookupProposal s.proposals p with
    | none => completeLoop pp secrets rest s
    | some prop =>
      match decryptBid pp prop.ciphertext prop.nonce prop.capsule secrets with
      | .error _ => none
      | .ok tx => completeLoop pp secrets rest
          { s with revealed_bids := s.revealed_bids ++ [tx] }

/-- Message `complete` from `src/tlock_auction/lib.rs`.  It indexes the
last slot id (panic on empty schedule), computes `is_past_deadline`, but
the `if !is_past_deadline` branch is empty (only a comment), so the loop
always runs.  No completion flag is checked or set, and no winner is
computed. -/
def complete (clock : Nat → Bool) (pp : Nat) (secrets : List (Nat × Nat))
    (s : TlockAuction) : Option TlockAuction :=
  match s.slot_ids.getLast? with
  | none => none
  | some deadline =>
    let _is_past_deadline := clock deadline
    completeLoop pp secrets s.participants s

end TlockAuction

/-! ### Supporting lemmas about the modelled time-lock cipher -/

theorem xor_map_involutive (k : Nat) (m : List Nat) :
    (m.map (fun b => b ^^^ k)).map (fun b => b ^^^ k) = m := by
  induction m with
  | nil => rfl
  | cons b rest ih => simp [List.map_cons, Nat.xor_cancel_right, ih]

theorem symDecrypt_symEncrypt (k : Nat) (nonce m : List Nat) :
    symDecrypt k nonce (symEncrypt k nonce m) = .ok m := by
  have hmap : List.map ((fun b => b ^^^ k) ∘ fun b => b ^^^ k) m = m := by
    rw [← List.map_map]
    exact xor_map_involutive k m
  simp [symEncrypt, symDecrypt, hmap]

theorem decryptBid_cons (pp : Nat) (ct nonce : List Nat) (t : Nat)
    (shares : List (List Nat)) (secrets : List (Nat × Nat)) :
    decryptBid pp ct nonce ([t] :: shares) secrets =
      if (recoverShares secrets shares).length < t then .error .InsufficientShares
      else
        match recoverShares secrets shares with
        | [] => .error .CapsuleMismatch
        | key :: _ => symDecrypt key nonce ct := rfl

theorem recoverShares_enc_length (pp k : Nat) (secrets : List (Nat × Nat))
    (S : List Nat) :
    (recoverShares secrets
        (S.map (fun slot => [slot, k ^^^ slotSecret pp slot]))).length =
      (S.filter (fun slot => (lookupSecret slot secrets).isSome)).length := by
  induction S with
  | nil => rfl
  | cons s rest ih =>
    simp only [List.map_cons, recoverShares, List.filterMap_cons, List.filter_cons]
    cases h : lookupSecret s secrets with
    | none => simpa [recoverShares, h] using ih
    | some key => simpa [recoverShares, h] using ih

theorem lookupSecret_good (pp slot key : Nat) (secrets : List (Nat × Nat))
    (hgood : ∀ q ∈ secrets, q.2 = slotSecret pp q.1)
    (h : lookupSecret slot secrets = some key) :
    key = slotSecret pp slot := by
  unfold lookupSecret at h
  cases hfind : secrets.find? (fun q => q.1 == slot) with
  | none => simp [hfind] at h
  | some q =>
    have hmem : q ∈ secrets := List.mem_of_find?_eq_some hfind
    have hpred := List.find?_some hfind
    have hslot : q.1 = slot := by simpa using hpred
    have hkey : q.2 = key := by simp [hfind] at h; exact h
    rw [← hkey, hgood q hmem, hslot]

theorem recoverShares_enc_mem (pp k : Nat) (secrets : List (Nat × Nat))
    (S : List Nat)
    (hgood : ∀ q ∈ secrets, q.2 = slotSecret pp q.1) :
    ∀ x ∈ recoverShares secrets
        (S.map (fun slot => [slot, k ^^^ slotSecret pp slot])), x = k := by
  intro x hx
  rw [recoverShares, List.mem_filterMap] at hx
  obtain ⟨sh, hsh, hval⟩ := hx
  rw [List.mem_map] at hsh
  obtain ⟨slot, _, rfl⟩ := hsh
  cases h : lookupSecret slot secrets with
  | none => simp [h] at hval
  | some key =>
    have hk : key = slotSecret pp slot := lookupSecret_good pp slot key secrets hgood h
    simp [h, hk, Nat.xor_cancel_right] at hval
    omega

/-- C8: for every message `m`, slot schedule `S`, and positive threshold
`t ≤ |S|` (the spec's `Threshold` is a positive integer), decrypting the
output of `encrypt_bid(m, S, t)` with slot secrets that are genuine
(equal to the slot's IBE secret) and cover at least `t` slots of `S`
recovers exactly `m`. -/
theorem c8_encrypt_decrypt_round_trip (pp k : Nat) (nonce m : List Nat)
    (S : List Nat) (t : Nat) (secrets : List (Nat × Nat))
    (ht0 : 0 < t) (hts : t ≤ S.length)
    (hgood : ∀ q ∈ secrets, q.2 = slotSecret pp q.1)
    (hcount : t ≤ (S.filter (fun slot => (lookupSecret slot secrets).isSome)).length) :
    ∃ ct n cap, encryptBid pp m S t k nonce = .ok (ct, n, cap) ∧
      decryptBid pp ct n cap secrets = .ok m := by
  refine ⟨symEncrypt k nonce m, nonce, encCapsule pp k S t, ?_, ?_⟩
  · unfold encryptBid
    rw [if_neg (Nat.not_lt.mpr hts)]
  · have hlen := recoverShares_enc_length pp k secrets S
    have hmem := recoverShares_enc_mem pp k secrets S hgood
    simp only [encCapsule]
    rw [decryptBid_cons]
    cases hcase : recoverShares secrets
        (S.map (fun slot => [slot, k ^^^ slotSecret pp slot])) with
    | nil =>
      exfalso
      rw [hcase] at hlen
      simp at hlen
      omega
    | cons key rest =>
      rw [hcase] at hlen hmem
      have hk : key = k := hmem key (List.mem_cons_self key rest)
      have hge : ¬ ((key :: rest).length < t) := by
        simp only [List.length_cons] at hlen ⊢
        omega
      rw [if_neg hge]
      show symDecrypt key nonce (symEncrypt k nonce m) = Except.ok m
      rw [hk]
      exact symDecrypt_symEncrypt k nonce m

/-- C8 witness: a concrete round trip through the modelled cipher. -/
theorem c8_witness :
    ∃ ct n cap, encryptBid 0 [5] [1, 2] 1 1 [] = .ok (ct, n, cap) ∧
      decryptBid 0 ct n cap [(1, Nat.pair 0 1)] = .ok [5] :=
  c8_encrypt_decrypt_round_trip 0 1 [] [5] [1, 2] 1 [(1, Nat.pair 0 1)]
    (by decide) (by decide) (by decide) (by decide)

/-! ### Auction creation (C5) -/

/-- C5 counterexample: creation with threshold `0`, and with a threshold
exceeding the slot schedule length, does not fail — `new` is total and
stores the invalid threshold unchanged, so no `InvalidThreshold`
validation exists. -/
theorem c5_counterexample :
    TlockAuction.new [] 0 0 [] 0 =
      { auction_item := { name := [], asset_id := 0, amount := 0 },
        slot_ids := [], threshold := 0, proposals := [], participants := [],
        winners := [], revealed_bids := [] } ∧
    (TlockAuction.new [7] 1 2 [3] 5).threshold = 5 := by
  constructor
  · rfl
  · rfl

/-- C5 (amended): auction creation never fails: for every input —
including a zero threshold or one exceeding the slot schedule length —
`new` succeeds and stores the item, schedule and threshold unchanged,
with empty proposals, participants, winners and revealed bids. -/
theorem c5_new_stores_inputs_unchanged (name : List Nat) (asset_id amount : Nat)
    (slot_ids : List Nat) (threshold : Nat) :
    TlockAuction.new name asset_id amount slot_ids threshold =
      { auction_item := { name := name, asset_id := asset_id, amount := amount },
        slot_ids := slot_ids, threshold := threshold, proposals := [],
        participants := [], winners := [], revealed_bids := [] } := rfl

/-! ### The default constructor and the unconditional deadline indexing (C9) -/

/-- C9: on the auction built by the default constructor the slot
schedule is empty, and every call to `propose`, `bid`, or `complete`
panics (reverts, modelled by `none`), because each indexes
`slot_ids[slot_ids.len() - 1]` before any other check. -/
theorem c9_default_schedule_every_message_panics (clock : Nat → Bool)
    (caller : Nat) (ct nonce : List Nat) (capsule : List (List Nat))
    (amount pp : Nat) (secrets : List (Nat × Nat)) :
    TlockAuction.propose clock caller ct nonce capsule TlockAuction.defaultState = none ∧
    TlockAuction.bid clock caller amount TlockAuction.defaultState = none ∧
    TlockAuction.complete clock pp secrets TlockAuction.defaultState = none := by
  refine ⟨rfl, rfl, rfl⟩

/-! ### `propose` after the deadline (C1) -/

/-- C1 (code evaluation at the failing input): with the slot clock
reporting the deadline slot `9` as elapsed, `propose` by caller `7` does
not fail with `DeadlinePassed`: the `if is_past_deadline` branch of the
source is empty, so the caller is registered and the proposal stored
anyway. -/
theorem c1_propose_after_deadline_still_stores :
    (TlockAuction.propose (fun _ => true) 7 [1] [2] [[3]]
        (TlockAuction.new [] 0 0 [9] 1)).map
      (fun s => (s.participants, lookupProposal s.proposals 7)) =
    some ([7], some { ciphertext := [1], nonce := [2], capsule := [[3]] }) := by
  decide

/-! ### Structure of `complete` (shared lemmas) -/

/-- The list of plaintexts `complete` appends to `revealed_bids`: one
decryption per registered participant, taken in registration order;
`none` when some decryption fails (the `.unwrap()` panic). -/
def revealBatch (pp : Nat) (secrets : List (Nat × Nat))
    (props : List (Nat × Proposal)) : List Nat → Option (List (List Nat))
  | [] => some []
  | p :: rest =>
    match lookupProposal props p with
    | none => revealBatch pp secrets props rest
    | some prop =>
      match decryptBid pp prop.ciphertext prop.nonce prop.capsule secrets with
      | .error _ => none
      | .ok tx => (revealBatch pp secrets props rest).map (fun ds => tx :: ds)

theorem completeLoop_eq (pp : Nat) (secrets : List (Nat × Nat)) :
    ∀ (ps : List Nat) (s : TlockAuction),
    TlockAuction.completeLoop pp secrets ps s =
      (revealBatch pp secrets s.proposals ps).map
        (fun ds => { s with revealed_bids := s.revealed_bids ++ ds }) := by
  intro ps
  induction ps with
  | nil => intro s; simp [TlockAuction.completeLoop, revealBatch]
  | cons p rest ih =>
    intro s
    simp only [TlockAuction.completeLoop, revealBatch]
    cases hlk : lookupProposal s.proposals p with
    | none => simp only [hlk]; exact ih s
    | some prop =>
      simp only [hlk]
      cases hdec : decryptBid pp prop.ciphertext prop.nonce prop.capsule secrets with
      | error e => simp [hdec]
      | ok tx =>
        simp only [hdec]
        rw [ih { s with revealed_bids := s.revealed_bids ++ [tx] }]
        cases hb : revealBatch pp secrets s.proposals rest with
        | none => simp [hb]
        | some ds => simp [hb]

theorem complete_eq (clock : Nat → Bool) (pp : Nat)
    (secrets : List (Nat × Nat)) (s : TlockAuction) (d : Nat)
    (hd : s.slot_ids.getLast? = some d) :
    TlockAuction.complete clock pp secrets s =
      (revealBatch pp secrets s.proposals s.participants).map
        (fun ds => { s with revealed_bids := s.revealed_bids ++ ds }) := by
  unfold TlockAuction.complete
  rw [hd]
  exact completeLoop_eq pp secrets s.participants s

theorem complete_some_shape (clock : Nat → Bool) (pp : Nat)
    (secrets : List (Nat × Nat)) (s s' : TlockAuction)
    (h : TlockAuction.complete clock pp secrets s = some s') :
    ∃ ds, revealBatch pp secrets s.proposals s.participants = some ds ∧
      s' = { s with revealed_bids := s.revealed_bids ++ ds } := by
  cases hd : s.slot_ids.getLast? with
  | none =>
    exfalso
    unfold TlockAuction.complete at h
    rw [hd] at h
    exact Option.noConfusion h
  | some d =>
    rw [complete_eq clock pp secrets s d hd] at h
    cases hb : revealBatch pp secrets s.proposals s.participants with
    | none => rw [hb] at h; exact Option.noConfusion h
    | some ds =>
      refine ⟨ds, rfl, ?_⟩
      rw [hb] at h
      have h2 : ({ s with revealed_bids := s.revealed_bids ++ ds } : TlockAuction) = s' := by
        simpa using h
      exact h2.symm

/-! ### Re-invoking `complete` (C2) -/

/-- C2 counterexample: starting from an auction with one stored
proposal, a first `complete` reveals `[[4]]`; a second `complete`
does not fail with `AlreadyCompleted` — it succeeds and appends the
same decrypted bid again, leaving `[[4], [4]]`. -/
theorem c2_counterexample :
    ((TlockAuction.propose (fun _ => false) 7 (symEncrypt 2 [] [4]) []
        (encCapsule 0 2 [1] 1) (TlockAuction.new [] 0 0 [1] 1)).bind
      (fun s1 => (TlockAuction.complete (fun _ => true) 0 [(1, Nat.pair 0 1)] s1).bind
        (fun s2 => (TlockAuction.complete (fun _ => true) 0 [(1, Nat.pair 0 1)] s2).map
          (fun s3 => (s2.revealed_bids, s3.revealed_bids))))) =
    some ([[4]], [[4], [4]]) := by decide

/-- C2 (amended): `complete` has no completed flag and no
`AlreadyCompleted` error: whenever a first `complete` succeeds, a second
call also succeeds, re-runs the same decryption batch over the unchanged
participants and proposals, and appends it to the RevealedBid list
again, so the list is doubled rather than unchanged. -/
theorem c2_second_complete_appends_again (clock : Nat → Bool) (pp : Nat)
    (secrets : List (Nat × Nat)) (s : TlockAuction) (d : Nat)
    (ds : List (List Nat))
    (hd : s.slot_ids.getLast? = some d)
    (hb : revealBatch pp secrets s.proposals s.participants = some ds) :
    ∃ s1 s2, TlockAuction.complete clock pp secrets s = some s1 ∧
      TlockAuction.complete clock pp secrets s1 = some s2 ∧
      s1.revealed_bids = s.revealed_bids ++ ds ∧
      s2.revealed_bids = s.revealed_bids ++ ds ++ ds := by
  have h1 : TlockAuction.complete clock pp secrets s =
      some { s with revealed_bids := s.revealed_bids ++ ds } := by
    rw [complete_eq clock pp secrets s d hd, hb]
    rfl
  have hd1 : ({ s with revealed_bids := s.revealed_bids ++ ds } :
      TlockAuction).slot_ids.getLast? = some d := hd
  have hb1 : revealBatch pp secrets
      ({ s with revealed_bids := s.revealed_bids ++ ds } : TlockAuction).proposals
      ({ s with revealed_bids := s.revealed_bids ++ ds } : TlockAuction).participants =
      some ds := hb
  have h2 : TlockAuction.complete clock pp secrets
      { s with revealed_bids := s.revealed_bids ++ ds } =
      some { s with revealed_bids := s.revealed_bids ++ ds ++ ds } := by
    rw [complete_eq clock pp secrets _ d hd1, hb1]
    rfl
  exact ⟨_, _, h1, h2, rfl, rfl⟩

/-- C2 witness: the amended statement at a concrete one-bidder auction. -/
theorem c2_witness :
    ∃ s1 s2, TlockAuction.complete (fun _ => true) 0 [(1, Nat.pair 0 1)]
        ⟨⟨[], 0, 0⟩, [1], 1, [(7, ⟨symEncrypt 2 [] [4], [], encCapsule 0 2 [1] 1⟩)],
          [7], [], []⟩ = some s1 ∧
      TlockAuction.complete (fun _ => true) 0 [(1, Nat.pair 0 1)] s1 = some s2 ∧
      s1.revealed_bids = [] ++ [[4]] ∧
      s2.revealed_bids = [] ++ [[4]] ++ [[4]] :=
  c2_second_complete_appends_again (fun _ => true) 0 [(1, Nat.pair 0 1)]
    ⟨⟨[], 0, 0⟩, [1], 1, [(7, ⟨symEncrypt 2 [] [4], [], encCapsule 0 2 [1] 1⟩)],
      [7], [], []⟩
    1 [[4]] (by decide) (by decide)

/-! ### A failing decryption during `complete` (C3) -/

/-- C3 counterexample: participant `1` submits a malformed capsule,
participant `2` a valid one; `complete` does not isolate the failure —
the `.unwrap()` panics and the whole call aborts (`none`), so
participant `2`'s bid is never appended. -/
theorem c3_counterexample :
    ((TlockAuction.propose (fun _ => false) 1 (symEncrypt 3 [] [7]) [] []
        (TlockAuction.new [] 0 0 [1] 1)).bind
      (fun s1 => (TlockAuction.propose (fun _ => false) 2 (symEncrypt 6 [] [8]) []
          (encCapsule 0 6 [1] 1) s1).bind
        (TlockAuction.complete (fun _ => true) 0 [(1, Nat.pair 0 1)]))) =
    none := by decide

theorem revealBatch_none_of_fail (pp : Nat) (secrets : List (Nat × Nat))
    (props : List (Nat × Proposal)) (p : Nat) (prop : Proposal) (e : EtfError)
    (hlk : lookupProposal props p = some prop)
    (hfail : decryptBid pp prop.ciphertext prop.nonce prop.capsule secrets = .error e) :
    ∀ ps : List Nat, p ∈ ps → revealBatch pp secrets props ps = none := by
  intro ps
  induction ps with
  | nil => intro hp; exact absurd hp (List.not_mem_nil p)
  | cons q rest ih =>
    intro hp
    cases hq : lookupProposal props q with
    | none =>
      have hpq : p ≠ q := fun h => by rw [h, hq] at hlk; exact Option.noConfusion hlk
      have hrest : p ∈ rest := by
        cases List.mem_cons.mp hp with
        | inl h => exact absurd h hpq
        | inr h => exact h
      simp only [revealBatch, hq]
      exact ih hrest
    | some prop' =>
      cases hdec : decryptBid pp prop'.ciphertext prop'.nonce prop'.capsule secrets with
      | error e' => simp [revealBatch, hq, hdec]
      | ok tx =>
        have hpq : p ≠ q := by
          intro h
          rw [h, hq] at hlk
          have hpp : prop' = prop := Option.some.inj hlk
          rw [hpp, hfail] at hdec
          exact Except.noConfusion hdec
        have hrest : p ∈ rest := by
          cases List.mem_cons.mp hp with
          | inl h => exact absurd h hpq
          | inr h => exact h
        simp [revealBatch, hq, hdec, ih hrest]

/-- C3 (amended): a decryption failure of one registered participant's
proposal is not isolated: the `.unwrap()` in the loop panics, the whole
`complete` call aborts (reverts), and no participant's bid — including
the remaining valid ones — is appended to the RevealedBid list. -/
theorem c3_decrypt_failure_aborts_complete (clock : Nat → Bool) (pp : Nat)
    (secrets : List (Nat × Nat)) (s : TlockAuction) (p : Nat)
    (prop : Proposal) (e : EtfError)
    (hp : p ∈ s.participants)
    (hlk : lookupProposal s.proposals p = some prop)
    (hfail : decryptBid pp prop.ciphertext prop.nonce prop.capsule secrets = .error e) :
    TlockAuction.complete clock pp secrets s = none := by
  cases hd : s.slot_ids.getLast? with
  | none =>
    unfold TlockAuction.complete
    rw [hd]
  | some d =>
    rw [complete_eq clock pp secrets s d hd,
      revealBatch_none_of_fail pp secrets s.proposals p prop e hlk hfail
        s.participants hp]
    rfl

/-- C3 witness: the amended statement at a concrete one-participant
auction whose stored capsule is malformed. -/
theorem c3_witness :
    TlockAuction.complete (fun _ => true) 0 []
      { auction_item := { name := [], asset_id := 0, amount := 0 },
        slot_ids := [1], threshold := 1,
        proposals := [(1, { ciphertext := [], nonce := [], capsule := [] })],
        participants := [1], winners := [], revealed_bids := [] } = none :=
  c3_decrypt_failure_aborts_complete (fun _ => true) 0 []
    { auction_item := { name := [], asset_id := 0, amount := 0 },
      slot_ids := [1], threshold := 1,
      proposals := [(1, { ciphertext := [], nonce := [], capsule := [] })],
      participants := [1], winners := [], revealed_bids := [] }
    1 { ciphertext := [], nonce := [], capsule := [] } .CapsuleMismatch
    (by decide) (by decide) (by decide)

/-! ### Winner determination (C4) -/

/-- C4 (code evaluation at the failing input): three participants
registered in order `1, 2, 3` bid `10, 25, 25`; `complete` decrypts all
three plaintexts in registration order but performs no winner
determination at all — it never parses an amount and `winners` stays
empty, instead of selecting participant `2`. -/
theorem c4_complete_computes_no_winner :
    ((TlockAuction.propose (fun _ => false) 1 (symEncrypt 11 [] [10]) []
        (encCapsule 0 11 [1] 1) (TlockAuction.new [] 0 0 [1] 1)).bind
      (fun s1 => (TlockAuction.propose (fun _ => false) 2 (symEncrypt 12 [] [25]) []
          (encCapsule 0 12 [1] 1) s1).bind
        (fun s2 => (TlockAuction.propose (fun _ => false) 3 (symEncrypt 13 [] [25]) []
            (encCapsule 0 13 [1] 1) s2).bind
          (TlockAuction.complete (fun _ => true) 0 [(1, Nat.pair 0 1)])))).map
      (fun s => (s.participants, s.revealed_bids, s.winners)) =
    some ([1, 2, 3], [[10], [25], [25]], []) := by decide

/-! ### `complete` with fewer slot secrets than the threshold (C7) -/

/-- C7 counterexample: auction with `slot_schedule = [1,2,3]` and
`threshold = 2`; participant `5` proposes a valid capsule; `complete`
with only the secret for slot 1 hits `InsufficientShares` on the
proposal, and instead of skipping it with an empty winner result the
`.unwrap()` panics and the whole call aborts (`none`). -/
theorem c7_counterexample :
    decryptBid 0 (symEncrypt 4 [] [9]) [] (encCapsule 0 4 [1, 2, 3] 2)
        [(1, Nat.pair 0 1)] = .error .InsufficientShares ∧
    (TlockAuction.propose (fun _ => false) 5 (symEncrypt 4 [] [9]) []
        (encCapsule 0 4 [1, 2, 3] 2) (TlockAuction.new [] 0 0 [1, 2, 3] 2)).bind
      (TlockAuction.complete (fun _ => false) 0 [(1, Nat.pair 0 1)]) = none := by
  constructor
  · decide
  · decide

/-- C7 (amended): in the scenario of the claim — schedule `[1,2,3]`,
threshold `2`, participant `5` with a valid capsule — `complete` with
only the secret for slot 1 fails `InsufficientShares` on the proposal
and the whole call panics (aborts with no state change) rather than
skipping it; a later `complete` supplied with the secrets for slots 1
and 2 decrypts the same proposal successfully and appends the bid. -/
theorem c7_insufficient_secrets_abort_then_later_success :
    (TlockAuction.propose (fun _ => false) 5 (symEncrypt 4 [] [9]) []
        (encCapsule 0 4 [1, 2, 3] 2) (TlockAuction.new [] 0 0 [1, 2, 3] 2)).map
      (fun s1 =>
        ((TlockAuction.complete (fun _ => false) 0 [(1, Nat.pair 0 1)] s1).isNone,
          (TlockAuction.complete (fun _ => true) 0
              [(1, Nat.pair 0 1), (2, Nat.pair 0 2)] s1).map
            (fun s2 => (s2.revealed_bids, s2.winners)))) =
    some (true, some ([[9]], [])) := by decide

/-! ### The participant registry under repeated `propose` (C6) -/

/-- The registry update performed by `propose`: append the caller unless
already present. -/
def pushIfAbsent (acc : List Nat) (c : Nat) : List Nat :=
  if acc.contains c then acc else acc ++ [c]

/-- First-occurrence deduplication relative to an already-seen prefix. -/
def nubFirstAux (seen : List Nat) : List Nat → List Nat
  | [] => []
  | c :: cs =>
    if seen.contains c then nubFirstAux seen cs
    else c :: nubFirstAux (seen ++ [c]) cs

/-- The spec-side registry: each caller exactly once, in order of first
occurrence. -/
def nubFirst (cs : List Nat) : List Nat :=
  nubFirstAux [] cs

/-- The spec-side proposal store: the proposal of the caller's last
`propose` call in the sequence, if any (last-write-wins). -/
def lastWrite (calls : List (Nat × Proposal)) (c : Nat) : Option Proposal :=
  match calls with
  | [] => none
  | (c0, p0) :: rest =>
    match lastWrite rest c with
    | some p => some p
    | none => if c0 == c then some p0 else none

/-- A sequence of `propose` calls, each by the given caller with the
given payload, applied in order. -/
def proposeSeq (clock : Nat → Bool) (calls : List (Nat × Proposal))
    (s : TlockAuction) : Option TlockAuction :=
  match calls with
  | [] => some s
  | (c, pr) :: rest =>
    (TlockAuction.propose clock c pr.ciphertext pr.nonce pr.capsule s).bind
      (proposeSeq clock rest)

theorem lookupProposal_insert_self (props : List (Nat × Proposal)) (c : Nat)
    (p : Proposal) :
    lookupProposal (insertProposal props c p) c = some p := by
  induction props with
  | nil => simp [insertProposal, lookupProposal]
  | cons q rest ih =>
    by_cases h : q.1 = c
    · simp [insertProposal, lookupProposal, h]
    · have hb : (q.1 == c) = false := by simpa using h
      simp only [insertProposal, hb, if_false]
      simpa [lookupProposal, List.find?_cons, hb] using ih

theorem lookupProposal_insert_other (props : List (Nat × Proposal)) (c c' : Nat)
    (p : Proposal) (hne : c' ≠ c) :
    lookupProposal (insertProposal props c p) c' = lookupProposal props c' := by
  have hb : (c == c') = false := by simpa using fun h => hne h.symm
  induction props with
  | nil => simp [insertProposal, lookupProposal, hb]
  | cons q rest ih =>
    by_cases h : q.1 = c
    · have hq : (q.1 == c) = true := by simpa using h
      have hq' : (q.1 == c') = false := by
        simp only [beq_eq_false_iff_ne]
        rw [h]
        exact fun hc => hne hc.symm
      simp [insertProposal, lookupProposal, hq, hq', hb, List.find?_cons]
    · have hq : (q.1 == c) = false := by simpa using h
      by_cases h' : q.1 = c'
      · have hq' : (q.1 == c') = true := by simpa using h'
        simp [insertProposal, lookupProposal, hq, hq', List.find?_cons]
      · have hq' : (q.1 == c') = false := by simpa using h'
        simp only [insertProposal, hq, if_false]
        simpa [lookupProposal, List.find?_cons, hq'] using ih

theorem foldl_pushIfAbsent_eq :
    ∀ (xs : List Nat) (acc : List Nat),
    xs.foldl pushIfAbsent acc = acc ++ nubFirstAux acc xs := by
  intro xs
  induction xs with
  | nil => intro acc; simp [nubFirstAux]
  | cons x rest ih =>
    intro acc
    simp only [List.foldl_cons, nubFirstAux]
    by_cases hmem : x ∈ acc
    · rw [if_pos (by simpa using hmem)]
      have hpush : pushIfAbsent acc x = acc := by simp [pushIfAbsent, hmem]
      rw [hpush, ih acc]
    · rw [if_neg (by simpa using hmem)]
      have hpush : pushIfAbsent acc x = acc ++ [x] := by simp [pushIfAbsent, hmem]
      rw [hpush, ih (acc ++ [x]), List.append_assoc]
      rfl

theorem proposeSeq_spec (clock : Nat → Bool) :
    ∀ (calls : List (Nat × Proposal)) (s : TlockAuction), s.slot_ids ≠ [] →
    ∃ s', proposeSeq clock calls s = some s' ∧
      s'.slot_ids = s.slot_ids ∧
      s'.participants = (calls.map (fun q => q.1)).foldl pushIfAbsent s.participants ∧
      ∀ c, lookupProposal s'.proposals c =
        match lastWrite calls c with
        | some p => some p
        | none => lookupProposal s.proposals c := by
  intro calls
  induction calls with
  | nil =>
    intro s hne
    refine ⟨s, rfl, rfl, rfl, ?_⟩
    intro c
    simp [lastWrite]
  | cons cp rest ih =>
    intro s hne
    obtain ⟨c0, p0⟩ := cp
    cases hlast : s.slot_ids.getLast? with
    | none => exact absurd (List.getLast?_eq_none_iff.mp hlast) hne
    | some d =>
      have hstep : TlockAuction.propose clock c0 p0.ciphertext p0.nonce p0.capsule s =
          some { s with
            participants := pushIfAbsent s.participants c0,
            proposals := insertProposal s.proposals c0 p0 } := by
        unfold TlockAuction.propose pushIfAbsent
        rw [hlast]
      obtain ⟨s', hseq, hslots, hparts, hprops⟩ :=
        ih { s with
          participants := pushIfAbsent s.participants c0,
          proposals := insertProposal s.proposals c0 p0 } hne
      refine ⟨s', ?_, hslots, hparts, ?_⟩
      · show (TlockAuction.propose clock c0 p0.ciphertext p0.nonce p0.capsule s).bind
          (proposeSeq clock rest) = some s'
        rw [hstep]
        exact hseq
      · intro c
        rw [hprops c]
        cases hlw : lastWrite rest c with
        | some p => simp [lastWrite, hlw]
        | none =>
          by_cases hc : c0 = c
          · subst hc
            simp only [lastWrite, hlw, beq_self_eq_true, if_true]
            exact lookupProposal_insert_self s.proposals c0 p0
          · have hb : (c0 == c) = false := by simpa using hc
            simp only [lastWrite, hlw, hb, if_false]
            exact lookupProposal_insert_other s.proposals c0 c p0 (fun h => hc h.symm)

/-- C6: for every sequence of `propose` calls applied to a fresh auction
(with a nonempty slot schedule, so that the deadline indexing does not
panic), every call succeeds, the participant registry is exactly the
callers deduplicated in order of first proposal, and the stored proposal
of each account is the one from its last `propose` call
(last-write-wins, no duplicate registry entry). -/
theorem c6_registry_first_order_and_last_write_wins (clock : Nat → Bool)
    (name : List Nat) (asset_id amount : Nat) (sch : List Nat) (t : Nat)
    (calls : List (Nat × Proposal)) (c : Nat) (hsch : sch ≠ []) :
    ∃ s, proposeSeq clock calls (TlockAuction.new name asset_id amount sch t) =
        some s ∧
      s.participants = nubFirst (calls.map (fun q => q.1)) ∧
      lookupProposal s.proposals c = lastWrite calls c := by
  obtain ⟨s', hseq, hslots, hparts, hprops⟩ :=
    proposeSeq_spec clock calls (TlockAuction.new name asset_id amount sch t) hsch
  refine ⟨s', hseq, ?_, ?_⟩
  · rw [hparts]
    show (calls.map (fun q => q.1)).foldl pushIfAbsent [] =
      nubFirst (calls.map (fun q => q.1))
    rw [foldl_pushIfAbsent_eq]
    rfl
  · rw [hprops c]
    cases hlw : lastWrite calls c with
    | some p => rfl
    | none => rfl

/-- C6 witness: three calls, caller `1` twice with caller `2` between:
registry is `[1, 2]` and caller `1`'s stored proposal is the later one. -/
theorem c6_witness :
    ∃ s, proposeSeq (fun _ => false)
        [(1, ⟨[1], [], []⟩), (2, ⟨[2], [], []⟩), (1, ⟨[3], [], []⟩)]
        (TlockAuction.new [] 0 0 [3] 1) = some s ∧
      s.participants = nubFirst
        (([(1, ⟨[1], [], []⟩), (2, ⟨[2], [], []⟩), (1, ⟨[3], [], []⟩)] :
          List (Nat × Proposal)).map (fun q => q.1)) ∧
      lookupProposal s.proposals 1 = lastWrite
        [(1, ⟨[1], [], []⟩), (2, ⟨[2], [], []⟩), (1, ⟨[3], [], []⟩)] 1 :=
  c6_registry_first_order_and_last_write_wins (fun _ => false) [] 0 0 [3] 1
    [(1, ⟨[1], [], []⟩), (2, ⟨[2], [], []⟩), (1, ⟨[3], [], []⟩)] 1 (by decide)

/-! ### Reachable states and the registry/proposal invariant (C10) -/

/-- What `complete` reveals for one participant: the stored proposal
decrypted, if the participant has one and decryption succeeds. -/
def revealOf (pp : Nat) (secrets : List (Nat × Nat))
    (props : List (Nat × Proposal)) (p : Nat) : Option (List Nat) :=
  (lookupProposal props p).bind
    (fun prop => (decryptBid pp prop.ciphertext prop.nonce prop.capsule secrets).toOption)

/-- Auction states reachable from a constructor call through the
contract's messages (`default` delegates to `new`, so it is covered by
the `init` case). -/
inductive Reachable : TlockAuction → Prop where
  | init (name : List Nat) (asset_id amount : Nat) (slot_ids : List Nat)
      (threshold : Nat) :
      Reachable (TlockAuction.new name asset_id amount slot_ids threshold)
  | step_propose {s s' : TlockAuction} (clock : Nat → Bool) (caller : Nat)
      (ct nonce : List Nat) (capsule : List (List Nat)) (hr : Reachable s)
      (hstep : TlockAuction.propose clock caller ct nonce capsule s = some s') :
      Reachable s'
  | step_bid {s s' : TlockAuction} (clock : Nat → Bool) (caller amount : Nat)
      (hr : Reachable s)
      (hstep : TlockAuction.bid clock caller amount s = some s') :
      Reachable s'
  | step_complete {s s' : TlockAuction} (clock : Nat → Bool) (pp : Nat)
      (secrets : List (Nat × Nat)) (hr : Reachable s)
      (hstep : TlockAuction.complete clock pp secrets s = some s') :
      Reachable s'

theorem propose_some_shape (clock : Nat → Bool) (caller : Nat)
    (ct nonce : List Nat) (capsule : List (List Nat)) (s s' : TlockAuction)
    (h : TlockAuction.propose clock caller ct nonce capsule s = some s') :
    s' = { s with
      participants := pushIfAbsent s.participants caller,
      proposals := insertProposal s.proposals caller
        { ciphertext := ct, nonce := nonce, capsule := capsule } } := by
  unfold TlockAuction.propose at h
  cases hl : s.slot_ids.getLast? with
  | none => rw [hl] at h; exact Option.noConfusion h
  | some d =>
    rw [hl] at h
    exact (Option.some.inj h).symm

theorem bid_some_shape (clock : Nat → Bool) (caller amount : Nat)
    (s s' : TlockAuction)
    (h : TlockAuction.bid clock caller amount s = some s') : s' = s := by
  unfold TlockAuction.bid at h
  cases hl : s.slot_ids.getLast? with
  | none => rw [hl] at h; exact Option.noConfusion h
  | some d =>
    rw [hl] at h
    exact (Option.some.inj h).symm

theorem mem_pushIfAbsent {p c : Nat} {acc : List Nat}
    (h : p ∈ pushIfAbsent acc c) : p ∈ acc ∨ p = c := by
  cases hc : acc.contains c with
  | true =>
    rw [pushIfAbsent, hc] at h
    exact .inl h
  | false =>
    rw [pushIfAbsent, hc] at h
    simp only [if_false, Bool.false_eq_true] at h
    simpa using List.mem_append.mp h

theorem reachable_registry_has_proposal {s : TlockAuction} (h : Reachable s) :
    ∀ p ∈ s.participants, (lookupProposal s.proposals p).isSome = true := by
  induction h with
  | init name asset_id amount slot_ids threshold =>
    intro p hp
    exact absurd hp (List.not_mem_nil p)
  | step_propose clock caller ct nonce capsule hr hstep ih =>
    intro p hp
    rw [propose_some_shape clock caller ct nonce capsule _ _ hstep] at hp ⊢
    rcases mem_pushIfAbsent hp with hold | hcaller
    · by_cases hpc : p = caller
      · subst hpc
        rw [lookupProposal_insert_self]
        rfl
      · rw [lookupProposal_insert_other _ _ _ _ hpc]
        exact ih p hold
    · subst hcaller
      rw [lookupProposal_insert_self]
      rfl
  | step_bid clock caller amount hr hstep ih =>
    rw [bid_some_shape clock caller amount _ _ hstep]
    exact ih
  | step_complete clock pp secrets hr hstep ih =>
    obtain ⟨ds, hb, hshape⟩ := complete_some_shape clock pp secrets _ _ hstep
    rw [hshape]
    exact ih

theorem revealBatch_map_of_isSome (pp : Nat) (secrets : List (Nat × Nat))
    (props : List (Nat × Proposal)) :
    ∀ (ps : List Nat) (ds : List (List Nat)),
    (∀ p ∈ ps, (lookupProposal props p).isSome = true) →
    revealBatch pp secrets props ps = some ds →
    ps.map (revealOf pp secrets props) = ds.map some := by
  intro ps
  induction ps with
  | nil =>
    intro ds _ hb
    simp only [revealBatch] at hb
    rw [← Option.some.inj hb]
    rfl
  | cons p rest ih =>
    intro ds hall hb
    have hpsome := hall p (List.mem_cons_self p rest)
    cases hlk : lookupProposal props p with
    | none => rw [hlk] at hpsome; exact absurd hpsome (by simp)
    | some prop =>
      simp only [revealBatch, hlk] at hb
      cases hdec : decryptBid pp prop.ciphertext prop.nonce prop.capsule secrets with
      | error e => simp only [hdec] at hb; exact Option.noConfusion hb
      | ok tx =>
        simp only [hdec] at hb
        cases hrest : revealBatch pp secrets props rest with
        | none => rw [hrest] at hb; exact Option.noConfusion hb
        | some ds' =>
          rw [hrest] at hb
          have hds : tx :: ds' = ds := by simpa using hb
          rw [← hds]
          have ihm := ih ds' (fun q hq => hall q (List.mem_cons_of_mem p hq)) hrest
          simp only [List.map_cons, ihm]
          have hrev : revealOf pp secrets props p = some tx := by
            simp [revealOf, hlk, hdec, Except.toOption]
          rw [hrev]

/-- C10: in every reachable auction state, every account in the
participant registry has a stored proposal (`propose` is the only
operation extending the registry and always stores one in the same
call); consequently a successful `complete` processes exactly one stored
proposal per registered participant, in registration order: the appended
batch is the participant list mapped through decryption of each one's
stored proposal. -/
theorem c10_registry_backed_by_proposals (s s' : TlockAuction) (p : Nat)
    (clock : Nat → Bool) (pp : Nat) (secrets : List (Nat × Nat))
    (h : Reachable s) (hp : p ∈ s.participants)
    (hc : TlockAuction.complete clock pp secrets s = some s') :
    (lookupProposal s.proposals p).isSome = true ∧
    ∃ ds, s.participants.map (revealOf pp secrets s.proposals) = ds.map some ∧
      s'.revealed_bids = s.revealed_bids ++ ds := by
  have hinv := reachable_registry_has_proposal h
  refine ⟨hinv p hp, ?_⟩
  obtain ⟨ds, hb, hshape⟩ := complete_some_shape clock pp secrets s s' hc
  refine ⟨ds, revealBatch_map_of_isSome pp secrets s.proposals s.participants ds hinv hb, ?_⟩
  rw [hshape]

/-- C10 witness: a reachable one-bidder auction whose `complete`
succeeds: the registered participant has a stored proposal, and the
revealed batch is exactly that participant's decrypted bid. -/
theorem c10_witness :
    (lookupProposal [(1, ⟨symEncrypt 2 [] [4], [], encCapsule 0 2 [1] 1⟩)] 1).isSome = true ∧
    ∃ ds, [1].map (revealOf 0 [(1, Nat.pair 0 1)]
        [(1, ⟨symEncrypt 2 [] [4], [], encCapsule 0 2 [1] 1⟩)]) = ds.map some ∧
      ([[4]] : List (List Nat)) = [] ++ ds :=
  c10_registry_backed_by_proposals
    ⟨⟨[], 0, 0⟩, [1], 1, [(1, ⟨symEncrypt 2 [] [4], [], encCapsule 0 2 [1] 1⟩)], [1], [], []⟩
    ⟨⟨[], 0, 0⟩, [1], 1, [(1, ⟨symEncrypt 2 [] [4], [], encCapsule 0 2 [1] 1⟩)], [1], [], [[4]]⟩
    1 (fun _ => true) 0 [(1, Nat.pair 0 1)]
    (Reachable.step_propose (fun _ => false) 1 (symEncrypt 2 [] [4]) []
      (encCapsule 0 2 [1] 1) (Reachable.init [] 0 0 [1] 1) (by decide))
    (by decide) (by decide)
